import Mathlib

/-!
Verification of the MemSurfer mesh-connectivity core (`TriMesh.hpp`).

The shallow embedding below translates the triangular-mesh data model and the
operations of `TriMesh` / `TriMeshPeriodic`:

* machine scalars (`float` coordinates, `TypeFunction`) are modelled as `ℚ`;
* vertex / face index types (`TypeIndex`, `uint32_t`) are modelled as `Nat`;
* a `Vertex` (3D point) and a `Face` (triple of vertex indices) are triples;
* `std::vector` becomes `List`; `std::unordered_map<std::string, ...>`
  becomes an association list with unique keys;
* fallible operations return `Bool × _`, `Option _` or `Except _ _`.

Member functions whose bodies are only declared in the header
(`need_neighbors`, `need_across_edge`, `need_boundary`, `wrap_vertices`,
`set_bbox`, `kde`) are modelled from the design specification and marked
`Modelled from the spec:` in their doc comments.
-/

namespace MemSurfer

/-- `TypeFunction` (float scalar) is modelled as `ℚ`. -/
abbrev TypeFunction := ℚ

/-- `TypeIndex` (an unsigned vertex/face index) is modelled as `Nat`. -/
abbrev TypeIndex := Nat

/-- A `Vertex` is a 3D point (`Vec<3,TypeFunction>`). -/
abbrev Vertex := ℚ × ℚ × ℚ

/-- A `Face` is an ordered triple of vertex indices (`Vec<3,TypeIndex>`). -/
abbrev Face := Nat × Nat × Nat

/-- The default-constructed `Vec<3,T>` entry produced by `data.resize(n)`. -/
def vecDefault {α : Type} [OfNat α 0] : α × α × α := (0, 0, 0)

/-- `TriMesh::linearize` for `D = 3`: flatten a vector of 3-component
entries into a single flat vector, component by component
(the `sz = 0` default linearizes the whole vector). -/
def linearize {α : Type} (data : List (α × α × α)) : List α :=
  (data.map (fun v => [v.1, v.2.1, v.2.2])).flatten

/-- `TriMesh::delinearize` for `D = 3`: rebuild 3-component entries from a
flat buffer of `n * d` scalars.  For `d = 3` every component is copied, for
`d = 2` the third component is set to `0`, and for any other `d` the function
leaves the `n` resized entries default-initialized.  It returns `true` in
every case (the C++ code has no failure path). -/
def delinearize {α : Type} [OfNat α 0] (buf : List α) (n d : Nat) :
    Bool × List (α × α × α) :=
  if d = 3 then
    (true, (List.range n).map (fun i =>
      (buf.getD (3 * i) 0, buf.getD (3 * i + 1) 0, buf.getD (3 * i + 2) 0)))
  else if d = 2 then
    (true, (List.range n).map (fun i =>
      (buf.getD (2 * i) 0, buf.getD (2 * i + 1) 0, 0)))
  else
    (true, List.replicate n vecDefault)

/-- The mesh store of class `TriMesh`: name, dimensionality, vertices, faces
and named scalar fields (`mFields` is `unordered_map`, so its keys are
unique; it is modelled as an association list). -/
structure TriMesh where
  mName : String
  mDim : Nat
  mVertices : List Vertex
  mFaces : List Face
  mFields : List (String × List TypeFunction)

/-- The constructor `TriMesh(float *, int n, int d)`: sets the name,
the dimensionality and delinearizes the buffer into `mVertices`
unconditionally (the return values of `set_dimensionality` and
`delinearize` are discarded, so no dimensionality error is ever signalled). -/
def mkTriMesh (buf : List TypeFunction) (n d : Nat) : TriMesh :=
  { mName := "TriMesh"
    mDim := d
    mVertices := (delinearize buf n d).2
    mFaces := []
    mFields := [] }

/-- `TriMesh::set_faces(uint32_t *, int n, int d)`: delinearize the index
buffer into `mFaces` and return the (always-`true`) delinearize status.
No bounds or distinctness validation is performed. -/
def set_faces (m : TriMesh) (buf : List Nat) (n d : Nat) : Bool × TriMesh :=
  ((delinearize buf n d).1, { m with mFaces := (delinearize buf n d).2 })

/-- `TriMesh::get_field`: look the name up in `mFields`; return the stored
vector when found and an empty vector otherwise. -/
def get_field (m : TriMesh) (name : String) : List TypeFunction :=
  match m.mFields.lookup name with
  | some v => v
  | none => []

/-- The documented face invariant: the three vertex indices are pairwise
distinct and each is within the bounds of the vertex array. -/
def faceInvariant (nverts : Nat) (f : Face) : Prop :=
  f.1 ≠ f.2.1 ∧ f.1 ≠ f.2.2 ∧ f.2.1 ≠ f.2.2 ∧
  f.1 < nverts ∧ f.2.1 < nverts ∧ f.2.2 < nverts

instance (nverts : Nat) (f : Face) : Decidable (faceInvariant nverts f) := by
  unfold faceInvariant; infer_instance

/-- The three vertex indices of a face are pairwise distinct
(the distinctness half of the face invariant). -/
def distinctFace (f : Face) : Prop :=
  f.1 ≠ f.2.1 ∧ f.1 ≠ f.2.2 ∧ f.2.1 ≠ f.2.2

instance (f : Face) : Decidable (distinctFace f) := by
  unfold distinctFace; infer_instance

/-- Vertex `k % 3` of a face (corner access `face[k]`). -/
def fVert (f : Face) (k : Nat) : Nat :=
  if k % 3 = 0 then f.1 else if k % 3 = 1 then f.2.1 else f.2.2

/-- Whether a face touches vertex `v` (membership of `v` among its corners). -/
def hasVert (f : Face) (v : Nat) : Bool :=
  f.1 == v || f.2.1 == v || f.2.2 == v

/-- The indices (in face order, i.e. the order a single pass over the face
array records adjacency) of all faces touching both endpoints `a` and `b`. -/
def facesWith (faces : List Face) (a b : Nat) : List Nat :=
  (List.range faces.length).filter
    (fun m => hasVert (faces.getD m vecDefault) a && hasVert (faces.getD m vecDefault) b)

/-- The edge of face `i` opposite corner `k`: the ordered endpoint pair
`(face[(k+1)%3], face[(k+2)%3])`. -/
def edgeOpp (faces : List Face) (i k : Nat) : Nat × Nat :=
  (fVert (faces.getD i vecDefault) ((k + 1) % 3),
   fVert (faces.getD i vecDefault) ((k + 2) % 3))

/-- Modelled from the spec: `TriMesh::need_across_edge` (body not in the
header).  Entry `k` of face `i`: scan, in recorded adjacency order, the
other faces touching both endpoints of the edge opposite corner `k` and
return the first match; `none` is the boundary sentinel when no other face
shares the edge. -/
def need_across_edge (faces : List Face) (i k : Nat) : Option Nat :=
  ((facesWith faces (edgeOpp faces i k).1 (edgeOpp faces i k).2).filter
    (fun j => j != i)).head?

/-- Modelled from the spec: `TriMesh::need_boundary` (body not in the
header).  Derived from `need_across_edge`: the edges whose across-edge
sentinel is unset, oriented as stored in the owning face. -/
def need_boundary (faces : List Face) : List (Nat × Nat) :=
  ((List.range faces.length).map (fun i =>
    (([0, 1, 2].filter (fun k => (need_across_edge faces i k).isNone)).map
      (fun k => edgeOpp faces i k)))).flatten

/-- A closed mesh: every edge (of every face) is shared by exactly two
faces. -/
def isClosed (faces : List Face) : Prop :=
  ∀ i, i < faces.length → ∀ k, k < 3 →
    (facesWith faces (edgeOpp faces i k).1 (edgeOpp faces i k).2).length = 2

/-- A manifold mesh: no edge (pair of distinct vertices) is shared by more
than two faces. -/
def isManifold (faces : List Face) : Prop :=
  ∀ a b : Nat, a ≠ b → (facesWith faces a b).length ≤ 2

instance (faces : List Face) : Decidable (isClosed faces) := by
  unfold isClosed; infer_instance

/-- Two tetrahedra glued along the edge `(0, 1)`: every face satisfies the
distinctness invariant, every face edge has at least one other face across
it, but edge `(0, 1)` is shared by four faces (a non-manifold mesh). -/
def gluedMesh : List Face :=
  [(0, 1, 2), (0, 2, 3), (0, 3, 1), (1, 3, 2),
   (0, 1, 4), (0, 4, 5), (0, 5, 1), (1, 5, 4)]

/-- Per-vertex neighbor state while `need_neighbors` runs: the neighbor
list recorded so far for every vertex index. -/
def NbState := Nat → List Nat

/-- One insertion step of `need_neighbors`: append `v` to the neighbor list
of `u` unless it is already present. -/
def addNb (st : NbState) (u v : Nat) : NbState :=
  fun w => if w = u then (if v ∈ st u then st u else st u ++ [v]) else st w

/-- Process one vertex pair of a face: insert each endpoint into the
other's neighbor list if not already present. -/
def addPairNb (st : NbState) (u v : Nat) : NbState :=
  addNb (addNb st u v) v u

/-- Process one face: its three vertex pairs in order. -/
def addFaceNb (st : NbState) (f : Face) : NbState :=
  addPairNb (addPairNb (addPairNb st f.1 f.2.1) f.2.1 f.2.2) f.2.2 f.1

/-- Modelled from the spec: `TriMesh::need_neighbors` (body not in the
header).  Iterate all faces once; for each face's three vertex pairs,
insert each endpoint into the other's neighbor list if not already
present. -/
def need_neighbors (faces : List Face) : NbState :=
  faces.foldl addFaceNb (fun _ => [])

/-- The neighbor-list invariant: irreflexive, symmetric and duplicate-free
per-vertex lists. -/
def nbInvariant (st : NbState) : Prop :=
  (∀ v, v ∉ st v) ∧ (∀ v w, w ∈ st v ↔ v ∈ st w) ∧ (∀ v, (st v).Nodup)

/-- Errors of the density estimator. -/
inductive KdeError where
  | invalidIndex : KdeError
deriving DecidableEq

/-- Remove a named field from the field map (for overwrite-by-name). -/
def removeField (fields : List (String × List TypeFunction)) (name : String) :
    List (String × List TypeFunction) :=
  fields.filter (fun p => p.1 != name)

/-- Store a named field, overwriting any prior field of the same name. -/
def set_field (m : TriMesh) (name : String) (vals : List TypeFunction) : TriMesh :=
  { m with mFields := (name, vals) :: removeField m.mFields name }

/-- Modelled from the spec: the density at a query vertex is the sum over
all vertices of the kernel applied to the query/contributor pair (the
kernel shape and its distance evaluation stay abstract). -/
def density (m : TriMesh) (ker : Vertex → Vertex → TypeFunction) (q : Vertex) :
    TypeFunction :=
  (m.mVertices.map (fun v => ker q v)).sum

/-- Modelled from the spec: `TriMesh::kde` with a restricted id subset
(body not in the header).  If `ids` references an out-of-range vertex
index the operation fails with an `InvalidIndex` error and no state is
mutated; otherwise the densities at the selected vertices are stored under
`name` (overwriting a prior field of that name) in the returned mesh. -/
def kde (m : TriMesh) (ker : Vertex → Vertex → TypeFunction) (name : String)
    (ids : List Nat) : Except KdeError TriMesh :=
  if ∃ i ∈ ids, m.mVertices.length ≤ i then
    Except.error KdeError.invalidIndex
  else
    Except.ok (set_field m name
      (ids.map (fun i => density m ker (m.mVertices.getD i vecDefault))))

/-- The periodic mesh `TriMeshPeriodic`: the base mesh plus the bounding
box, its validity flag, the periodic and trimmed faces, and the duplicate
vertices with their originals map. -/
structure TriMeshPeriodic extends TriMesh where
  mBox0 : Vertex
  mBox1 : Vertex
  bbox_valid : Bool
  mPeriodicFaces : List Face
  mTrimmedFaces : List Face
  mDuplicateVerts_OrigIds : List (TypeIndex × Int × Int)
  mDuplicateVerts : List Vertex

/-- `TriMeshPeriodic::periodic_faces`: linearized periodic faces, preceded
by the linearized original faces when `combined` is set. -/
def periodic_faces (m : TriMeshPeriodic) (combined : Bool) : List Nat :=
  if !combined then linearize m.mPeriodicFaces
  else linearize m.mFaces ++ linearize m.mPeriodicFaces

/-- `TriMeshPeriodic::trimmed_faces`: linearized trimmed faces, preceded
by the linearized original faces when `combined` is set. -/
def trimmed_faces (m : TriMeshPeriodic) (combined : Bool) : List Nat :=
  if !combined then linearize m.mTrimmedFaces
  else linearize m.mFaces ++ linearize m.mTrimmedFaces

/-- `TriMeshPeriodic::duplicated_vertices`: linearized duplicate vertices,
preceded by the linearized original vertices when `combined` is set. -/
def duplicated_vertices (m : TriMeshPeriodic) (combined : Bool) :
    List TypeFunction :=
  if !combined then linearize m.mDuplicateVerts
  else linearize m.mVertices ++ linearize m.mDuplicateVerts

/-- Modelled from the spec: `TriMeshPeriodic::set_bbox` (body not in the
header).  Fails, leaving the mesh untouched, when min is not below max on
some active dimension (x and y always; z as well for a 3D mesh); on
success stores the box corners and transitions to the BoxSet state. -/
def set_bbox (m : TriMeshPeriodic) (b0 b1 : Vertex) : Bool × TriMeshPeriodic :=
  if b0.1 < b1.1 ∧ b0.2.1 < b1.2.1 ∧ (m.mDim = 3 → b0.2.2 < b1.2.2) then
    (true, { m with mBox0 := b0, mBox1 := b1, bbox_valid := true })
  else
    (false, m)

/-- Modelled from the spec: wrap one coordinate into `[lo, hi)` by adding
or subtracting the box extent `hi - lo` as many times as needed. -/
def wrap1 (lo hi x : ℚ) : ℚ :=
  x - (hi - lo) * (⌊(x - lo) / (hi - lo)⌋ : ℤ)

/-- Wrap one vertex: the x and y coordinates always, the z coordinate only
when `dim = 3`. -/
def wrapVertex (b0 b1 : Vertex) (dim : Nat) (v : Vertex) : Vertex :=
  if dim = 3 then
    (wrap1 b0.1 b1.1 v.1, wrap1 b0.2.1 b1.2.1 v.2.1, wrap1 b0.2.2 b1.2.2 v.2.2)
  else
    (wrap1 b0.1 b1.1 v.1, wrap1 b0.2.1 b1.2.1 v.2.1, v.2.2)

/-- Modelled from the spec: `TriMeshPeriodic::wrap_vertices` (body not in
the header).  Requires the BoxSet state (`bbox_valid`); maps every vertex
coordinate of each active dimension into `[box.min, box.max)` by periodic
wraparound. -/
def wrap_vertices (m : TriMeshPeriodic) (dim : Nat) : Option TriMeshPeriodic :=
  if m.bbox_valid = true then
    some { m with mVertices := m.mVertices.map (wrapVertex m.mBox0 m.mBox1 dim) }
  else
    none

/-- A concrete triangle mesh used to evaluate the theorems: three vertices
and one face. -/
def sampleMesh : TriMesh :=
  { mName := "TriMesh"
    mDim := 3
    mVertices := [(0, 0, 0), (1, 0, 0), (0, 1, 0)]
    mFaces := [(0, 1, 2)]
    mFields := [("area", [1, 2, 3])] }

/-- A concrete unconfigured periodic mesh used to evaluate the theorems. -/
def samplePMesh : TriMeshPeriodic :=
  { mName := "TriMeshPeriodic"
    mDim := 2
    mVertices := [(19/10, 0, 0), (-1/4, 1/2, 0)]
    mFaces := []
    mFields := []
    mBox0 := (0, 0, 0)
    mBox1 := (0, 0, 0)
    bbox_valid := false
    mPeriodicFaces := []
    mTrimmedFaces := []
    mDuplicateVerts_OrigIds := []
    mDuplicateVerts := [] }

/-- A trivially zero density kernel used to evaluate the theorems. -/
def kerZero : Vertex → Vertex → TypeFunction := fun _ _ => 0

/-- The sample periodic mesh after a successful `set_bbox` with the unit
box (the BoxSet state). -/
def sampleBoxMesh : TriMeshPeriodic :=
  { samplePMesh with mBox0 := (0, 0, 0), mBox1 := (1, 1, 1), bbox_valid := true }

end MemSurfer

namespace MemSurfer

/-! ## Helper lemmas -/

theorem linearize_cons {α : Type} (v : α × α × α) (t : List (α × α × α)) :
    linearize (v :: t) = v.1 :: v.2.1 :: v.2.2 :: linearize t := rfl

theorem linearize_length {α : Type} (data : List (α × α × α)) :
    (linearize data).length = 3 * data.length := by
  induction data with
  | nil => rfl
  | cons v t ih =>
      rw [linearize_cons]
      simp only [List.length_cons, ih]
      omega

theorem lookup_eq_none_of_not_mem (l : List (String × List TypeFunction))
    (name : String) (h : ∀ v, (name, v) ∉ l) : l.lookup name = none := by
  induction l with
  | nil => rfl
  | cons p t ih =>
      obtain ⟨k, val⟩ := p
      have hne : name ≠ k := by
        intro he
        exact h val (by rw [he]; exact List.mem_cons_self _ _)
      have hbe : (name == k) = false := beq_eq_false_iff_ne.mpr hne
      show (match name == k with
            | true => some val
            | false => t.lookup name) = none
      rw [hbe]
      exact ih (fun v hv => h v (List.mem_cons_of_mem _ hv))

theorem lookup_eq_some_of_mem (l : List (String × List TypeFunction))
    (name : String) (v : List TypeFunction)
    (hnd : (l.map Prod.fst).Nodup) (h : (name, v) ∈ l) :
    l.lookup name = some v := by
  induction l with
  | nil => simp at h
  | cons p t ih =>
      obtain ⟨k, val⟩ := p
      simp only [List.map_cons, List.nodup_cons] at hnd
      rcases List.mem_cons.mp h with he | ht
      · rw [Prod.mk.injEq] at he
        show (match name == k with
              | true => some val
              | false => t.lookup name) = some v
        rw [beq_iff_eq.mpr he.1]
        rw [he.2]
      · have hne : name ≠ k := by
          intro heq
          exact hnd.1 (heq ▸ (List.mem_map.mpr ⟨(name, v), ht, rfl⟩))
        have hbe : (name == k) = false := beq_eq_false_iff_ne.mpr hne
        show (match name == k with
              | true => some val
              | false => t.lookup name) = some v
        rw [hbe]
        exact ih hnd.2 ht

theorem wrap1_lb (lo hi x : ℚ) (h : lo < hi) : lo ≤ wrap1 lo hi x := by
  have hE : (0 : ℚ) < hi - lo := by linarith
  have h1 : ((⌊(x - lo) / (hi - lo)⌋ : ℤ) : ℚ) ≤ (x - lo) / (hi - lo) :=
    Int.floor_le _
  have h2 : ((⌊(x - lo) / (hi - lo)⌋ : ℤ) : ℚ) * (hi - lo) ≤ x - lo :=
    (le_div_iff₀ hE).mp h1
  unfold wrap1
  linarith

theorem wrap1_ub (lo hi x : ℚ) (h : lo < hi) : wrap1 lo hi x < hi := by
  have hE : (0 : ℚ) < hi - lo := by linarith
  have h1 : (x - lo) / (hi - lo) < (⌊(x - lo) / (hi - lo)⌋ : ℤ) + 1 :=
    Int.lt_floor_add_one _
  have h2 : x - lo < (((⌊(x - lo) / (hi - lo)⌋ : ℤ) : ℚ) + 1) * (hi - lo) :=
    (div_lt_iff₀ hE).mp h1
  unfold wrap1
  linarith

theorem wrap1_sub_int (lo hi x : ℚ) :
    ∃ n : ℤ, wrap1 lo hi x = x - (hi - lo) * n :=
  ⟨⌊(x - lo) / (hi - lo)⌋, rfl⟩

theorem wrap1_idem (lo hi x : ℚ) (h : lo < hi) :
    wrap1 lo hi (wrap1 lo hi x) = wrap1 lo hi x := by
  have hE : (0 : ℚ) < hi - lo := by linarith
  have hlb := wrap1_lb lo hi x h
  have hub := wrap1_ub lo hi x h
  have h0 : ⌊(wrap1 lo hi x - lo) / (hi - lo)⌋ = 0 := by
    rw [Int.floor_eq_zero_iff, Set.mem_Ico]
    constructor
    · exact div_nonneg (by linarith) hE.le
    · rw [div_lt_one hE]
      linarith
  show wrap1 lo hi x - (hi - lo) * ((⌊(wrap1 lo hi x - lo) / (hi - lo)⌋ : ℤ) : ℚ) =
    wrap1 lo hi x
  rw [h0]
  push_cast
  ring

theorem wrapVertex_idem (b0 b1 : Vertex) (dim : Nat)
    (hx : b0.1 < b1.1) (hy : b0.2.1 < b1.2.1) (hz : dim = 3 → b0.2.2 < b1.2.2)
    (v : Vertex) :
    wrapVertex b0 b1 dim (wrapVertex b0 b1 dim v) = wrapVertex b0 b1 dim v := by
  by_cases h3 : dim = 3
  · simp only [wrapVertex, if_pos h3, Prod.mk.injEq]
    exact ⟨wrap1_idem _ _ _ hx, wrap1_idem _ _ _ hy, wrap1_idem _ _ _ (hz h3)⟩
  · simp only [wrapVertex, if_neg h3, Prod.mk.injEq]
    exact ⟨wrap1_idem _ _ _ hx, wrap1_idem _ _ _ hy, trivial⟩

theorem fVert_zero (f : Face) : fVert f 0 = f.1 := rfl

theorem fVert_one (f : Face) : fVert f 1 = f.2.1 := rfl

theorem fVert_two (f : Face) : fVert f 2 = f.2.2 := rfl

theorem hasVert_fVert (f : Face) (k : Nat) : hasVert f (fVert f k) = true := by
  unfold hasVert fVert
  split_ifs <;> simp

theorem hasVert_iff (f : Face) (v : Nat) :
    hasVert f v = true ↔ f.1 = v ∨ f.2.1 = v ∨ f.2.2 = v := by
  unfold hasVert
  simp [Bool.or_eq_true, beq_iff_eq, or_assoc]

theorem mem_facesWith (faces : List Face) (a b m : Nat) :
    m ∈ facesWith faces a b ↔
      m < faces.length ∧ hasVert (faces.getD m vecDefault) a = true ∧
        hasVert (faces.getD m vecDefault) b = true := by
  unfold facesWith
  simp [List.mem_filter, List.mem_range, Bool.and_eq_true, and_assoc]

theorem facesWith_nodup (faces : List Face) (a b : Nat) :
    (facesWith faces a b).Nodup :=
  (List.nodup_range _).filter _

theorem facesWith_comm (faces : List Face) (a b : Nat) :
    facesWith faces a b = facesWith faces b a := by
  unfold facesWith
  exact List.filter_congr (fun m _ => Bool.and_comm _ _)

theorem facesWith_length_le (faces : List Face) (a b : Nat) :
    (facesWith faces a b).length ≤ faces.length := by
  unfold facesWith
  calc (List.filter _ (List.range faces.length)).length
      ≤ (List.range faces.length).length := List.length_filter_le _ _
    _ = faces.length := List.length_range _

theorem getD_mem (l : List Face) (i : Nat) (h : i < l.length) :
    l.getD i vecDefault ∈ l := by
  rw [List.getD_eq_getElem l vecDefault h]
  exact List.getElem_mem h

theorem self_mem_facesWith (faces : List Face) (i k : Nat)
    (hi : i < faces.length) :
    i ∈ facesWith faces (edgeOpp faces i k).1 (edgeOpp faces i k).2 :=
  (mem_facesWith faces _ _ i).mpr ⟨hi, hasVert_fVert _ _, hasVert_fVert _ _⟩

theorem edgeOpp_ne (faces : List Face) (i k : Nat)
    (hd : distinctFace (faces.getD i vecDefault)) :
    (edgeOpp faces i k).1 ≠ (edgeOpp faces i k).2 := by
  obtain ⟨h12, h13, h23⟩ := hd
  have h3 : k % 3 = 0 ∨ k % 3 = 1 ∨ k % 3 = 2 := by omega
  unfold edgeOpp
  rcases h3 with h | h | h
  · rw [(by omega : (k + 1) % 3 = 1), (by omega : (k + 2) % 3 = 2),
      fVert_one, fVert_two]
    exact h23
  · rw [(by omega : (k + 1) % 3 = 2), (by omega : (k + 2) % 3 = 0),
      fVert_two, fVert_zero]
    exact h13.symm
  · rw [(by omega : (k + 1) % 3 = 0), (by omega : (k + 2) % 3 = 1),
      fVert_zero, fVert_one]
    exact h12

theorem across_mem (faces : List Face) (i k j : Nat)
    (h : need_across_edge faces i k = some j) :
    j ∈ facesWith faces (edgeOpp faces i k).1 (edgeOpp faces i k).2 ∧
      j ≠ i := by
  unfold need_across_edge at h
  have hj := List.mem_of_mem_head? (Option.mem_def.mpr h)
  obtain ⟨hmem, hne⟩ := List.mem_filter.mp hj
  exact ⟨hmem, bne_iff_ne.mp hne⟩

theorem nodup_pair_eq {L : List Nat} (hlen : L.length ≤ 2) (hnd : L.Nodup)
    {i j : Nat} (hi : i ∈ L) (hj : j ∈ L) (hij : i ≠ j) :
    L = [i, j] ∨ L = [j, i] := by
  rcases L with _ | ⟨x, _ | ⟨y, _ | ⟨z, t⟩⟩⟩
  · exact absurd hi (List.not_mem_nil i)
  · rw [List.mem_singleton] at hi hj
    exact absurd (hi.trans hj.symm) hij
  · rcases List.mem_pair.mp hi with rfl | rfl <;>
      rcases List.mem_pair.mp hj with rfl | rfl
    · exact absurd rfl hij
    · exact Or.inl rfl
    · exact Or.inr rfl
    · exact absurd rfl hij
  · simp only [List.length_cons] at hlen
    omega

theorem filter_ne_head_pair {L : List Nat} {i j : Nat}
    (hL : L = [i, j] ∨ L = [j, i]) (hij : i ≠ j) :
    (L.filter (fun x => x != j)).head? = some i := by
  have h1 : (i != j) = true := bne_iff_ne.mpr hij
  have h2 : (j != j) = false := by simp
  rcases hL with rfl | rfl <;> simp [List.filter_cons, h1, h2]

theorem exists_opp_corner (g : Face) (a b : Nat) (hab : a ≠ b)
    (hga : hasVert g a = true) (hgb : hasVert g b = true) :
    ∃ kk, kk < 3 ∧
      ((fVert g ((kk + 1) % 3), fVert g ((kk + 2) % 3)) = (a, b) ∨
       (fVert g ((kk + 1) % 3), fVert g ((kk + 2) % 3)) = (b, a)) := by
  rcases (hasVert_iff g a).mp hga with e1 | e1 | e1 <;>
    rcases (hasVert_iff g b).mp hgb with e2 | e2 | e2
  · exact absurd (e1.symm.trans e2) hab
  · refine ⟨2, by omega, Or.inl ?_⟩
    show (fVert g 0, fVert g 1) = (a, b)
    rw [fVert_zero, fVert_one, e1, e2]
  · refine ⟨1, by omega, Or.inr ?_⟩
    show (fVert g 2, fVert g 0) = (b, a)
    rw [fVert_two, fVert_zero, e1, e2]
  · refine ⟨2, by omega, Or.inr ?_⟩
    show (fVert g 0, fVert g 1) = (b, a)
    rw [fVert_zero, fVert_one, e1, e2]
  · exact absurd (e1.symm.trans e2) hab
  · refine ⟨0, by omega, Or.inl ?_⟩
    show (fVert g 1, fVert g 2) = (a, b)
    rw [fVert_one, fVert_two, e1, e2]
  · refine ⟨1, by omega, Or.inl ?_⟩
    show (fVert g 2, fVert g 0) = (a, b)
    rw [fVert_two, fVert_zero, e1, e2]
  · refine ⟨0, by omega, Or.inr ?_⟩
    show (fVert g 1, fVert g 2) = (b, a)
    rw [fVert_one, fVert_two, e1, e2]
  · exact absurd (e1.symm.trans e2) hab

theorem across_of_orient (faces : List Face) (j kk a b i : Nat)
    (horient : edgeOpp faces j kk = (a, b) ∨ edgeOpp faces j kk = (b, a))
    (hpair : facesWith faces a b = [i, j] ∨ facesWith faces a b = [j, i])
    (hij : i ≠ j) :
    need_across_edge faces j kk = some i := by
  unfold need_across_edge
  have hfw : facesWith faces (edgeOpp faces j kk).1 (edgeOpp faces j kk).2 =
      facesWith faces a b := by
    rcases horient with h | h <;> rw [h]
    exact facesWith_comm faces b a
  rw [hfw]
  exact filter_ne_head_pair hpair hij

theorem nodup_all_eq {L : List Nat} (hnd : L.Nodup) {i : Nat} (hi : i ∈ L)
    (hall : ∀ x ∈ L, x = i) : L = [i] := by
  rcases L with _ | ⟨x, _ | ⟨y, t⟩⟩
  · exact absurd hi (List.not_mem_nil i)
  · rw [hall x (List.mem_singleton.mpr rfl)]
  · have hx : x = i := hall x (List.mem_cons_self _ _)
    have hy : y = i := hall y (List.mem_cons_of_mem x (List.mem_cons_self _ _))
    rw [List.nodup_cons] at hnd
    exact absurd (by rw [hx, ← hy]; exact List.mem_cons_self _ _) hnd.1

theorem across_none_iff (faces : List Face) (i k : Nat)
    (hi : i < faces.length) :
    need_across_edge faces i k = none ↔
      facesWith faces (edgeOpp faces i k).1 (edgeOpp faces i k).2 = [i] := by
  unfold need_across_edge
  rw [List.head?_eq_none_iff, List.filter_eq_nil_iff]
  constructor
  · intro h
    exact nodup_all_eq (facesWith_nodup _ _ _) (self_mem_facesWith faces i k hi)
      (fun x hx => by simpa [bne_iff_ne] using h x hx)
  · intro h x hx
    rw [h, List.mem_singleton] at hx
    simp [hx]

theorem across_ne_none_iff_two (faces : List Face) (i k : Nat)
    (hi : i < faces.length)
    (hdist : ∀ f ∈ faces, distinctFace f)
    (hman : isManifold faces) :
    need_across_edge faces i k ≠ none ↔
      (facesWith faces (edgeOpp faces i k).1 (edgeOpp faces i k).2).length
        = 2 := by
  rw [Ne, across_none_iff faces i k hi]
  have hiL := self_mem_facesWith faces i k hi
  have hpos : 0 < (facesWith faces (edgeOpp faces i k).1
      (edgeOpp faces i k).2).length := List.length_pos_of_mem hiL
  have hle : (facesWith faces (edgeOpp faces i k).1
      (edgeOpp faces i k).2).length ≤ 2 :=
    hman _ _ (edgeOpp_ne faces i k (hdist _ (getD_mem faces i hi)))
  constructor
  · intro hne
    rcases Nat.lt_or_ge (facesWith faces (edgeOpp faces i k).1
        (edgeOpp faces i k).2).length 2 with hlt | hge
    · have h1 : (facesWith faces (edgeOpp faces i k).1
          (edgeOpp faces i k).2).length = 1 := by omega
      obtain ⟨x, hx⟩ := List.length_eq_one.mp h1
      rw [hx, List.mem_singleton] at hiL
      rw [← hiL] at hx
      exact absurd hx hne
    · omega
  · intro h2 heq
    rw [heq] at h2
    simp at h2

theorem mem_addNb (st : NbState) (u v w x : Nat) :
    x ∈ addNb st u v w ↔ x ∈ st w ∨ (w = u ∧ x = v) := by
  unfold addNb
  by_cases hw : w = u
  · subst hw
    rw [if_pos rfl]
    by_cases hv : v ∈ st w
    · rw [if_pos hv]
      constructor
      · exact fun h => Or.inl h
      · rintro (h | ⟨-, rfl⟩)
        · exact h
        · exact hv
    · rw [if_neg hv]
      simp [List.mem_append]
  · rw [if_neg hw]
    simp [hw]

theorem nodup_addNb (st : NbState) (u v : Nat) (h : ∀ w, (st w).Nodup)
    (w : Nat) : (addNb st u v w).Nodup := by
  unfold addNb
  by_cases hw : w = u
  · subst hw
    rw [if_pos rfl]
    by_cases hv : v ∈ st w
    · rw [if_pos hv]
      exact h w
    · rw [if_neg hv]
      simp [List.nodup_append, h w, hv]
  · rw [if_neg hw]
    exact h w

theorem mem_addPairNb (st : NbState) (u v w x : Nat) :
    x ∈ addPairNb st u v w ↔
      x ∈ st w ∨ (w = u ∧ x = v) ∨ (w = v ∧ x = u) := by
  unfold addPairNb
  rw [mem_addNb, mem_addNb]
  tauto

theorem nbInvariant_addPairNb (st : NbState) (u v : Nat) (huv : u ≠ v)
    (hinv : nbInvariant st) : nbInvariant (addPairNb st u v) := by
  obtain ⟨hirr, hsym, hnd⟩ := hinv
  refine ⟨?_, ?_, ?_⟩
  · intro w
    rw [mem_addPairNb]
    rintro (h | ⟨rfl, h2⟩ | ⟨rfl, h2⟩)
    · exact hirr w h
    · exact huv h2
    · exact huv h2.symm
  · intro a b
    rw [mem_addPairNb, mem_addPairNb]
    have hs := hsym a b
    tauto
  · intro w
    unfold addPairNb
    exact nodup_addNb _ _ _ (nodup_addNb _ _ _ hnd) w

theorem nbInvariant_addFaceNb (st : NbState) (f : Face) (hf : distinctFace f)
    (hinv : nbInvariant st) : nbInvariant (addFaceNb st f) := by
  obtain ⟨h12, h13, h23⟩ := hf
  unfold addFaceNb
  exact nbInvariant_addPairNb _ _ _ h13.symm
    (nbInvariant_addPairNb _ _ _ h23 (nbInvariant_addPairNb _ _ _ h12 hinv))

theorem nbInvariant_foldl (faces : List Face) (st : NbState)
    (hdist : ∀ f ∈ faces, distinctFace f) (hinv : nbInvariant st) :
    nbInvariant (faces.foldl addFaceNb st) := by
  induction faces generalizing st with
  | nil => exact hinv
  | cons f t ih =>
      exact ih _ (fun g hg => hdist g (List.mem_cons_of_mem f hg))
        (nbInvariant_addFaceNb st f (hdist f (List.mem_cons_self f t)) hinv)

theorem map_wrapVertex_idem (b0 b1 : Vertex) (dim : Nat)
    (hx : b0.1 < b1.1) (hy : b0.2.1 < b1.2.1) (hz : dim = 3 → b0.2.2 < b1.2.2)
    (l : List Vertex) :
    (l.map (wrapVertex b0 b1 dim)).map (wrapVertex b0 b1 dim) =
      l.map (wrapVertex b0 b1 dim) := by
  induction l with
  | nil => rfl
  | cons v t ih =>
      simp only [List.map_cons, ih, List.cons.injEq, and_true]
      exact wrapVertex_idem b0 b1 dim hx hy hz v

/-! ## Claim theorems -/

/-- C5: for every periodic mesh, `periodic_faces`, `trimmed_faces` and
`duplicated_vertices` called with `combined = true` return exactly the
linearized original sequence concatenated with the linearized
periodic/duplicate sequence, so the combined length is the (linearized)
original count plus the duplicate count, and duplicates follow the
originals. -/
theorem periodic_accessors_combined (m : TriMeshPeriodic) :
    periodic_faces m true = linearize m.mFaces ++ linearize m.mPeriodicFaces ∧
    (periodic_faces m true).length =
      3 * m.mFaces.length + 3 * m.mPeriodicFaces.length ∧
    trimmed_faces m true = linearize m.mFaces ++ linearize m.mTrimmedFaces ∧
    (trimmed_faces m true).length =
      3 * m.mFaces.length + 3 * m.mTrimmedFaces.length ∧
    duplicated_vertices m true =
      linearize m.mVertices ++ linearize m.mDuplicateVerts ∧
    (duplicated_vertices m true).length =
      3 * m.mVertices.length + 3 * m.mDuplicateVerts.length := by
  refine ⟨rfl, ?_, rfl, ?_, rfl, ?_⟩ <;>
    simp [periodic_faces, trimmed_faces, duplicated_vertices,
      List.length_append, linearize_length]

/-- C9: `get_field` returns the empty vector for a name under which no
field has been stored, and returns the stored value sequence unchanged for
every stored field name. -/
theorem get_field_spec (m : TriMesh) (name : String)
    (hnd : (m.mFields.map Prod.fst).Nodup) :
    ((∀ v, (name, v) ∉ m.mFields) → get_field m name = []) ∧
    (∀ v, (name, v) ∈ m.mFields → get_field m name = v) := by
  constructor
  · intro h
    unfold get_field
    rw [lookup_eq_none_of_not_mem m.mFields name h]
  · intro v h
    unfold get_field
    rw [lookup_eq_some_of_mem m.mFields name v hnd h]

/-- Witness for C9 on the concrete sample mesh: the unstored name gives
`[]`, the stored name gives its value back. -/
theorem get_field_spec_witness :
    get_field sampleMesh "density" = [] ∧
    get_field sampleMesh "area" = [1, 2, 3] := by
  refine ⟨(get_field_spec sampleMesh "density" ?_).1 ?_,
          (get_field_spec sampleMesh "area" ?_).2 [1, 2, 3] ?_⟩ <;>
    simp [sampleMesh]

/-- C10: `delinearize` always returns `true`; the constructor
`TriMesh(float*, n, d)` stores its output unconditionally (no bad-`d`
signal); the output has exactly `n` entries; for `d = 2` every third
coordinate is exactly `0`; for `d` neither 2 nor 3 the `n` resized entries
stay default-initialized. -/
theorem delinearize_spec (buf : List TypeFunction) (n d : Nat) :
    (delinearize buf n d).1 = true ∧
    (mkTriMesh buf n d).mVertices = (delinearize buf n d).2 ∧
    (delinearize buf n d).2.length = n ∧
    (d = 2 → ∀ v ∈ (delinearize buf n d).2, v.2.2 = 0) ∧
    (d ≠ 2 → d ≠ 3 → (delinearize buf n d).2 = List.replicate n vecDefault) := by
  refine ⟨?_, rfl, ?_, ?_, ?_⟩
  · unfold delinearize
    split <;> [rfl; split <;> rfl]
  · unfold delinearize
    split
    · simp
    · split <;> simp
  · intro h2 v hv
    subst h2
    have hv' : v ∈ (List.range n).map (fun i =>
        (buf.getD (2 * i) 0, buf.getD (2 * i + 1) 0, (0 : TypeFunction))) := by
      simpa [delinearize] using hv
    obtain ⟨i, -, hvi⟩ := List.mem_map.mp hv'
    rw [← hvi]
  · intro h2 h3
    simp [delinearize, h2, h3]

/-- Witness for C10: concrete evaluations at `d = 2` and at a bad `d`. -/
theorem delinearize_spec_witness :
    (∀ v ∈ (delinearize ([1, 2, 3, 4] : List TypeFunction) 2 2).2, v.2.2 = 0) ∧
    (delinearize ([1, 2] : List TypeFunction) 2 5).2 =
      List.replicate 2 vecDefault := by
  exact ⟨(delinearize_spec [1, 2, 3, 4] 2 2).2.2.2.1 rfl,
         (delinearize_spec [1, 2] 2 5).2.2.2.2 (by decide) (by decide)⟩

/-- C8 fails as stated: `set_faces` performs no validation, so a stored
face can violate the face invariant (here `(0,0,5)` with only 3 vertices:
repeated indices and an out-of-range index, yet `set_faces` stores it). -/
theorem set_faces_cex :
    ¬ (∀ (m : TriMesh) (buf : List Nat) (n d : Nat),
        ∀ f ∈ (set_faces m buf n d).2.mFaces,
          faceInvariant (set_faces m buf n d).2.mVertices.length f) := by
  intro h
  have hmem : ((0, 0, 5) : Face) ∈ (set_faces sampleMesh [0, 0, 5] 1 3).2.mFaces := by
    simp [set_faces, delinearize, List.range_succ]
  have := h sampleMesh [0, 0, 5] 1 3 (0, 0, 5) hmem
  have hlen : (set_faces sampleMesh [0, 0, 5] 1 3).2.mVertices.length = 3 := by
    simp [set_faces, sampleMesh]
  rw [hlen] at this
  exact absurd this (by decide)

/-- C8 amended: `set_faces` stores the delinearized buffer verbatim and
reports success, so the stored faces satisfy the face invariant exactly
when the delinearized input triples do. -/
theorem set_faces_inv (m : TriMesh) (buf : List Nat) (n d : Nat)
    (h : ∀ f ∈ (delinearize buf n d).2, faceInvariant m.mVertices.length f) :
    (set_faces m buf n d).2.mFaces = (delinearize buf n d).2 ∧
    (set_faces m buf n d).1 = true ∧
    ∀ f ∈ (set_faces m buf n d).2.mFaces,
      faceInvariant (set_faces m buf n d).2.mVertices.length f := by
  refine ⟨rfl, ?_, ?_⟩
  · show (delinearize buf n d).1 = true
    unfold delinearize
    split <;> [rfl; split <;> rfl]
  · intro f hf
    exact h f hf

/-- Witness for C8 amended: a valid face buffer on the sample mesh. -/
theorem set_faces_inv_witness :
    (∀ f ∈ (delinearize [0, 1, 2] 1 3).2,
      faceInvariant sampleMesh.mVertices.length f) ∧
    (set_faces sampleMesh [0, 1, 2] 1 3).2.mFaces = (delinearize [0, 1, 2] 1 3).2 := by
  have h : ∀ f ∈ (delinearize [0, 1, 2] 1 3).2,
      faceInvariant sampleMesh.mVertices.length f := by
    decide
  exact ⟨h, (set_faces_inv sampleMesh [0, 1, 2] 1 3 h).1⟩

/-- C6: when `ids` contains an out-of-range vertex index, `kde` fails with
the `InvalidIndex` error; no clamped result and no modified mesh is ever
produced. -/
theorem kde_invalid_index (m : TriMesh) (ker : Vertex → Vertex → TypeFunction)
    (name : String) (ids : List Nat)
    (h : ∃ i ∈ ids, m.mVertices.length ≤ i) :
    kde m ker name ids = Except.error KdeError.invalidIndex ∧
    ∀ m', kde m ker name ids ≠ Except.ok m' := by
  have he : kde m ker name ids = Except.error KdeError.invalidIndex := by
    unfold kde
    rw [if_pos h]
  exact ⟨he, fun m' hok => by rw [he] at hok; exact Except.noConfusion hok⟩

/-- Witness for C6: index 5 is out of range for the 3-vertex sample mesh. -/
theorem kde_invalid_index_witness :
    kde sampleMesh kerZero "density" [5] = Except.error KdeError.invalidIndex := by
  refine (kde_invalid_index sampleMesh kerZero "density" [5] ?_).1
  exact ⟨5, by simp, by simp [sampleMesh]⟩

/-- C7: `set_bbox` fails and leaves the mesh (hence its state) unchanged
when min is not below max on an active dimension, and after every
successful `set_bbox` the box invariant `min < max` holds on every active
dimension and the mesh is in the BoxSet state. -/
theorem set_bbox_spec (m : TriMeshPeriodic) (b0 b1 : Vertex) :
    ((b1.1 ≤ b0.1 ∨ b1.2.1 ≤ b0.2.1 ∨ (m.mDim = 3 ∧ b1.2.2 ≤ b0.2.2)) →
      set_bbox m b0 b1 = (false, m)) ∧
    ((set_bbox m b0 b1).1 = true →
      (set_bbox m b0 b1).2.mBox0.1 < (set_bbox m b0 b1).2.mBox1.1 ∧
      (set_bbox m b0 b1).2.mBox0.2.1 < (set_bbox m b0 b1).2.mBox1.2.1 ∧
      ((set_bbox m b0 b1).2.mDim = 3 →
        (set_bbox m b0 b1).2.mBox0.2.2 < (set_bbox m b0 b1).2.mBox1.2.2) ∧
      (set_bbox m b0 b1).2.bbox_valid = true) := by
  by_cases hc : b0.1 < b1.1 ∧ b0.2.1 < b1.2.1 ∧ (m.mDim = 3 → b0.2.2 < b1.2.2)
  · constructor
    · intro hbad
      rcases hbad with h | h | ⟨hd, h⟩
      · exact absurd hc.1 (not_lt.mpr h)
      · exact absurd hc.2.1 (not_lt.mpr h)
      · exact absurd (hc.2.2 hd) (not_lt.mpr h)
    · intro _
      unfold set_bbox
      rw [if_pos hc]
      exact ⟨hc.1, hc.2.1, fun hd => hc.2.2 hd, rfl⟩
  · constructor
    · intro _
      unfold set_bbox
      rw [if_neg hc]
    · intro htrue
      unfold set_bbox at htrue
      rw [if_neg hc] at htrue
      exact absurd htrue (by simp)

/-- Witness for C7: a degenerate box is rejected with the mesh unchanged,
and a proper box establishes the invariant. -/
theorem set_bbox_spec_witness :
    set_bbox samplePMesh (0, 0, 0) (0, 1, 0) = (false, samplePMesh) ∧
    (set_bbox samplePMesh (0, 0, 0) (1, 1, 0)).2.mBox0.1 <
      (set_bbox samplePMesh (0, 0, 0) (1, 1, 0)).2.mBox1.1 := by
  constructor
  · exact (set_bbox_spec samplePMesh (0, 0, 0) (0, 1, 0)).1 (Or.inl le_rfl)
  · exact ((set_bbox_spec samplePMesh (0, 0, 0) (1, 1, 0)).2 (by decide)).1

/-- C4: for a periodic mesh in the BoxSet state with a valid box,
`wrap_vertices` succeeds and maps every vertex coordinate of each active
dimension into `[box.min, box.max)`, changing each coordinate only by an
integer multiple of the box extent, and it is idempotent: wrapping the
already-wrapped mesh returns it unchanged. -/
theorem wrap_vertices_spec (m : TriMeshPeriodic) (dim : Nat)
    (hb : m.bbox_valid = true)
    (hx : m.mBox0.1 < m.mBox1.1)
    (hy : m.mBox0.2.1 < m.mBox1.2.1)
    (hz : dim = 3 → m.mBox0.2.2 < m.mBox1.2.2) :
    ∃ m', wrap_vertices m dim = some m' ∧
      m'.mVertices = m.mVertices.map (wrapVertex m.mBox0 m.mBox1 dim) ∧
      (∀ v ∈ m.mVertices,
        (m.mBox0.1 ≤ (wrapVertex m.mBox0 m.mBox1 dim v).1 ∧
          (wrapVertex m.mBox0 m.mBox1 dim v).1 < m.mBox1.1) ∧
        (m.mBox0.2.1 ≤ (wrapVertex m.mBox0 m.mBox1 dim v).2.1 ∧
          (wrapVertex m.mBox0 m.mBox1 dim v).2.1 < m.mBox1.2.1) ∧
        (dim = 3 → m.mBox0.2.2 ≤ (wrapVertex m.mBox0 m.mBox1 dim v).2.2 ∧
          (wrapVertex m.mBox0 m.mBox1 dim v).2.2 < m.mBox1.2.2) ∧
        (dim ≠ 3 → (wrapVertex m.mBox0 m.mBox1 dim v).2.2 = v.2.2) ∧
        (∃ n1 n2 n3 : ℤ,
          (wrapVertex m.mBox0 m.mBox1 dim v).1 =
            v.1 - (m.mBox1.1 - m.mBox0.1) * n1 ∧
          (wrapVertex m.mBox0 m.mBox1 dim v).2.1 =
            v.2.1 - (m.mBox1.2.1 - m.mBox0.2.1) * n2 ∧
          (wrapVertex m.mBox0 m.mBox1 dim v).2.2 =
            v.2.2 - (m.mBox1.2.2 - m.mBox0.2.2) * n3)) ∧
      wrap_vertices m' dim = some m' := by
  refine ⟨{ m with mVertices := m.mVertices.map (wrapVertex m.mBox0 m.mBox1 dim) },
    ?_, rfl, ?_, ?_⟩
  · unfold wrap_vertices
    rw [if_pos hb]
  · intro v _
    by_cases h3 : dim = 3
    · refine ⟨?_, ?_, ?_, fun hne => absurd h3 hne, ?_⟩
      · simp only [wrapVertex, if_pos h3]
        exact ⟨wrap1_lb _ _ _ hx, wrap1_ub _ _ _ hx⟩
      · simp only [wrapVertex, if_pos h3]
        exact ⟨wrap1_lb _ _ _ hy, wrap1_ub _ _ _ hy⟩
      · intro _
        simp only [wrapVertex, if_pos h3]
        exact ⟨wrap1_lb _ _ _ (hz h3), wrap1_ub _ _ _ (hz h3)⟩
      · simp only [wrapVertex, if_pos h3]
        obtain ⟨n1, hn1⟩ := wrap1_sub_int m.mBox0.1 m.mBox1.1 v.1
        obtain ⟨n2, hn2⟩ := wrap1_sub_int m.mBox0.2.1 m.mBox1.2.1 v.2.1
        obtain ⟨n3, hn3⟩ := wrap1_sub_int m.mBox0.2.2 m.mBox1.2.2 v.2.2
        exact ⟨n1, n2, n3, hn1, hn2, hn3⟩
    · refine ⟨?_, ?_, fun he => absurd he h3, fun _ => ?_, ?_⟩
      · simp only [wrapVertex, if_neg h3]
        exact ⟨wrap1_lb _ _ _ hx, wrap1_ub _ _ _ hx⟩
      · simp only [wrapVertex, if_neg h3]
        exact ⟨wrap1_lb _ _ _ hy, wrap1_ub _ _ _ hy⟩
      · simp only [wrapVertex, if_neg h3]
      · simp only [wrapVertex, if_neg h3]
        obtain ⟨n1, hn1⟩ := wrap1_sub_int m.mBox0.1 m.mBox1.1 v.1
        obtain ⟨n2, hn2⟩ := wrap1_sub_int m.mBox0.2.1 m.mBox1.2.1 v.2.1
        exact ⟨n1, n2, 0, hn1, hn2, by push_cast; ring⟩
  · have hb' : ({ m with mVertices := m.mVertices.map (wrapVertex m.mBox0 m.mBox1 dim) } : TriMeshPeriodic).bbox_valid = true := hb
    unfold wrap_vertices
    rw [if_pos hb', Option.some.injEq]
    exact congrArg (fun l => ({ m with mVertices := l } : TriMeshPeriodic))
      (map_wrapVertex_idem m.mBox0 m.mBox1 dim hx hy hz m.mVertices)

/-- Witness for C4: the unit box and the sample vertices, wrapped once and
twice. -/
theorem wrap_vertices_spec_witness :
    ∃ m', wrap_vertices sampleBoxMesh 2 = some m' ∧
      wrap_vertices m' 2 = some m' := by
  obtain ⟨m', h1, -, -, h4⟩ :=
    wrap_vertices_spec sampleBoxMesh 2 rfl (by norm_num [sampleBoxMesh, samplePMesh])
      (by norm_num [sampleBoxMesh, samplePMesh])
      (fun h => absurd h (by norm_num))
  exact ⟨m', h1, h4⟩

/-- C2: the per-vertex neighbor lists computed by `need_neighbors` are
irreflexive (no vertex is its own neighbor), symmetric (`w` neighbors `v`
iff `v` neighbors `w`) and duplicate-free, for every mesh whose faces
satisfy the documented distinctness invariant. -/
theorem need_neighbors_spec (faces : List Face)
    (hdist : ∀ f ∈ faces, distinctFace f) :
    (∀ v, v ∉ need_neighbors faces v) ∧
    (∀ v w, w ∈ need_neighbors faces v ↔ v ∈ need_neighbors faces w) ∧
    (∀ v, (need_neighbors faces v).Nodup) :=
  nbInvariant_foldl faces (fun _ => []) hdist
    ⟨fun v => List.not_mem_nil v,
     fun _ _ => ⟨fun h => absurd h (List.not_mem_nil _),
                 fun h => absurd h (List.not_mem_nil _)⟩,
     fun _ => List.nodup_nil⟩

/-- C1: for a manifold mesh with valid (distinct-vertex) faces, every
across-edge entry of `need_across_edge` is either the boundary sentinel or
a valid face index `j` whose own across-edge entry at the shared edge (in
either orientation) points back to the original face: round-trip
symmetry. -/
theorem need_across_edge_symm (faces : List Face) (i k j : Nat)
    (hi : i < faces.length)
    (hdist : ∀ f ∈ faces, distinctFace f)
    (hman : isManifold faces)
    (hj : need_across_edge faces i k = some j) :
    j < faces.length ∧ j ≠ i ∧
    ∃ kk, kk < 3 ∧
      (edgeOpp faces j kk = ((edgeOpp faces i k).1, (edgeOpp faces i k).2) ∨
       edgeOpp faces j kk = ((edgeOpp faces i k).2, (edgeOpp faces i k).1)) ∧
      need_across_edge faces j kk = some i := by
  obtain ⟨hjL, hjne⟩ := across_mem faces i k j hj
  obtain ⟨hjlen, hga, hgb⟩ := (mem_facesWith faces _ _ j).mp hjL
  have hab : (edgeOpp faces i k).1 ≠ (edgeOpp faces i k).2 :=
    edgeOpp_ne faces i k (hdist _ (getD_mem faces i hi))
  have hiL := self_mem_facesWith faces i k hi
  have hL2 := hman _ _ hab
  have hpair := nodup_pair_eq hL2 (facesWith_nodup faces _ _) hiL hjL
    (Ne.symm hjne)
  obtain ⟨kk, hkk3, horient⟩ :=
    exists_opp_corner (faces.getD j vecDefault) _ _ hab hga hgb
  exact ⟨hjlen, hjne, kk, hkk3, horient,
    across_of_orient faces j kk _ _ i horient hpair (Ne.symm hjne)⟩

/-- C3 fails as stated: the "boundary empty iff closed" consequence does
not hold for every mesh.  On the glued-tetrahedra mesh — whose faces all
satisfy the distinctness invariant — the boundary set of `need_boundary`
is empty, yet the mesh is not closed: edge `(0, 1)` is shared by four
faces, not two. -/
theorem need_boundary_cex :
    ¬ (∀ faces : List Face, (∀ f ∈ faces, distinctFace f) →
        (need_boundary faces = [] ↔ isClosed faces)) := by
  intro h
  have hclosed : isClosed gluedMesh :=
    (h gluedMesh (by decide)).mp (by decide)
  exact absurd hclosed (by decide)

/-- C3 amended: for every mesh, an edge is in the boundary set produced by
`need_boundary` iff its across-edge sentinel is unset; and for meshes with
valid (distinct-vertex) faces that are manifold — no edge shared by more
than two faces — the boundary set is empty iff the mesh is closed (every
edge shared by exactly two faces).  Without manifoldness the consequence
can fail (see the counterexample). -/
theorem need_boundary_spec (faces : List Face) :
    (∀ e, e ∈ need_boundary faces ↔
      ∃ i, i < faces.length ∧ ∃ k, k < 3 ∧ e = edgeOpp faces i k ∧
        need_across_edge faces i k = none) ∧
    ((∀ f ∈ faces, distinctFace f) → isManifold faces →
      (need_boundary faces = [] ↔ isClosed faces)) := by
  have hmem : ∀ e, e ∈ need_boundary faces ↔
      ∃ i, i < faces.length ∧ ∃ k, k < 3 ∧ e = edgeOpp faces i k ∧
        need_across_edge faces i k = none := by
    intro e
    unfold need_boundary
    rw [List.mem_flatten]
    constructor
    · rintro ⟨Lk, hLk, heLk⟩
      obtain ⟨i, hirange, rfl⟩ := List.mem_map.mp hLk
      obtain ⟨k, hk, rfl⟩ := List.mem_map.mp heLk
      obtain ⟨hk012, hkisnone⟩ := List.mem_filter.mp hk
      refine ⟨i, List.mem_range.mp hirange, k, ?_, rfl,
        Option.isNone_iff_eq_none.mp hkisnone⟩
      have : k = 0 ∨ k = 1 ∨ k = 2 := by simpa using hk012
      omega
    · rintro ⟨i, hilen, k, hk3, rfl, hnone⟩
      refine ⟨_, List.mem_map.mpr ⟨i, List.mem_range.mpr hilen, rfl⟩,
        List.mem_map.mpr ⟨k, List.mem_filter.mpr ⟨?_, ?_⟩, rfl⟩⟩
      · have : k = 0 ∨ k = 1 ∨ k = 2 := by omega
        rcases this with rfl | rfl | rfl <;> simp
      · rw [hnone]
        rfl
  refine ⟨hmem, ?_⟩
  intro hdist hman
  rw [List.eq_nil_iff_forall_not_mem]
  unfold isClosed
  constructor
  · intro h i hi k hk3
    refine (across_ne_none_iff_two faces i k hi hdist hman).mp ?_
    intro hnone
    exact h (edgeOpp faces i k) ((hmem _).mpr ⟨i, hi, k, hk3, rfl, hnone⟩)
  · intro h e he
    obtain ⟨i, hi, k, hk3, rfl, hnone⟩ := (hmem e).mp he
    exact (across_ne_none_iff_two faces i k hi hdist hman).mpr
      (h i hi k hk3) hnone

/-- Witness for C3 on the two-triangle square mesh, whose four outer
edges are boundary (so it is not closed and its boundary set nonempty). -/
theorem need_boundary_spec_witness :
    need_boundary [((0, 1, 2) : Face), (1, 3, 2)] = [] ↔
      isClosed [((0, 1, 2) : Face), (1, 3, 2)] :=
  (need_boundary_spec [(0, 1, 2), (1, 3, 2)]).2 (by decide)
    (fun a b _ => le_trans (facesWith_length_le _ a b) (by decide))

/-- Witness for C1 on the two-triangle square mesh: faces 0 and 1 share
the diagonal, and the across-edge link is mutual. -/
theorem need_across_edge_symm_witness :
    need_across_edge [((0, 1, 2) : Face), (1, 3, 2)] 0 0 = some 1 ∧
    ∃ kk, kk < 3 ∧
      need_across_edge [((0, 1, 2) : Face), (1, 3, 2)] 1 kk = some 0 := by
  have hj : need_across_edge [((0, 1, 2) : Face), (1, 3, 2)] 0 0 = some 1 := by
    decide
  obtain ⟨-, -, kk, hkk3, -, hsome⟩ :=
    need_across_edge_symm [(0, 1, 2), (1, 3, 2)] 0 0 1 (by decide) (by decide)
      (fun a b _ => le_trans (facesWith_length_le _ a b) (by decide)) hj
  exact ⟨hj, kk, hkk3, hsome⟩

/-- Witness for C2 on the two-triangle square mesh. -/
theorem need_neighbors_spec_witness :
    (∀ f ∈ [((0, 1, 2) : Face), (1, 3, 2)], distinctFace f) ∧
    (∀ v, v ∉ need_neighbors [((0, 1, 2) : Face), (1, 3, 2)] v) := by
  have hd : ∀ f ∈ [((0, 1, 2) : Face), (1, 3, 2)], distinctFace f := by decide
  exact ⟨hd, (need_neighbors_spec [(0, 1, 2), (1, 3, 2)] hd).1⟩

end MemSurfer
